import Mathlib

/-!
Verification of the color-quantization core of the `prodbyeagle/color`
repository, shallowly embedded in Lean 4.

The embedding follows the canonical sources:
* `src/src/lib/quantization.ts` — `quantize`, `kMeans`, `shuffle`, `distSq`;
* `src/unnamed/part_003` (`lib/utils`) — `dist`, `filterSimilarColors`;
* `src/src/lib/convert.ts` — `rgbToHex`, `rgbToHsl`;
* `src/src/lib/colorFormatters` (`src/unnamed/part_000`) — `formatColors`;
* `src/src/main.ts` — `extractColors`.

Modelling conventions:
* Pixel channels are bytes coming from a `Uint8ClampedArray`, so colors are
  modelled as triples of natural numbers.
* `Math.round(s / n)` for natural `s` and positive natural `n` equals
  `(2 * s + n) / (2 * n)` in natural-number division (floor of `s/n + 1/2`).
* JavaScript `Math.sqrt` comparisons against a natural threshold `t` satisfy
  `Math.sqrt s < t ↔ s < t * t`; the integer square root `intSqrt` satisfies
  exactly the same equivalence (`le_intSqrt_iff`), so `dist` is modelled with
  `intSqrt` and all threshold comparisons coincide with the source's
  floating-point ones.
* The `Math.random()` draw in `shuffle` is modelled by an arbitrary oracle
  `rand : ℕ → ℕ`; at loop index `i` the source draws `j ∈ [0, i]`, modelled by
  clamping the oracle with `min (rand i) i`.
-/

set_option maxRecDepth 100000

namespace EagleColor

/-- An RGB color triple `[r, g, b]`, channels in ℕ (bytes in the pipeline). -/
abbrev RGB := ℕ × ℕ × ℕ

/-- Absolute difference of two naturals, via truncated subtraction. -/
def diffAbs (x y : ℕ) : ℕ := (x - y) + (y - x)

/-- Squared Euclidean distance between two RGB colors
(`distSq` in `quantization.ts`: sum over the three channels of the squared
component difference). -/
def distSq (a b : RGB) : ℕ :=
  diffAbs a.1 b.1 ^ 2 + diffAbs a.2.1 b.2.1 ^ 2 + diffAbs a.2.2 b.2.2 ^ 2

/-- Digit-by-digit integer square root, structurally recursive on a fuel
argument so that it evaluates by kernel reduction in logarithmic depth. -/
def intSqrtAux : ℕ → ℕ → ℕ
  | 0, _ => 0
  | fuel + 1, n =>
    if n < 2 then n
    else
      if (2 * intSqrtAux fuel (n / 4) + 1) * (2 * intSqrtAux fuel (n / 4) + 1) ≤ n
      then 2 * intSqrtAux fuel (n / 4) + 1
      else 2 * intSqrtAux fuel (n / 4)

/-- Integer square root: the floor of the real square root of `n`. -/
def intSqrt (n : ℕ) : ℕ := intSqrtAux n n

/-- Euclidean distance between two RGB colors (`dist` in `lib/utils`:
`Math.sqrt` of the summed squared channel differences; both vectors have the
three RGB components, so the `min(a.length, b.length)` loop bound is 3).
`intSqrt` is the floor of the real square root, and comparisons of the form
`dist a b < t` / `t ≤ dist a b` for a natural `t` agree with the source's
real-valued ones. -/
def dist (a b : RGB) : ℕ := intSqrt (distSq a b)

theorem intSqrtAux_bounds :
    ∀ fuel n, n ≤ fuel →
      intSqrtAux fuel n * intSqrtAux fuel n ≤ n ∧
      n < (intSqrtAux fuel n + 1) * (intSqrtAux fuel n + 1) := by
  intro fuel
  induction fuel with
  | zero =>
    intro n hn
    have hn0 : n = 0 := Nat.le_zero.mp hn
    subst hn0; simp [intSqrtAux]
  | succ fuel ih =>
    intro n hn
    unfold intSqrtAux
    by_cases h2 : n < 2
    · rw [if_pos h2]
      constructor <;> nlinarith
    · rw [if_neg h2]
      have hq : n / 4 ≤ fuel := by omega
      obtain ⟨ihl, ihr⟩ := ih (n / 4) hq
      have hmod : 4 * (n / 4) + n % 4 = n := Nat.div_add_mod n 4
      have hm4 : n % 4 < 4 := Nat.mod_lt n (by omega)
      set s := intSqrtAux fuel (n / 4) with hs
      by_cases hup : (2 * s + 1) * (2 * s + 1) ≤ n
      · rw [if_pos hup]
        refine ⟨hup, ?_⟩
        have hr : (2 * s + 1 + 1) * (2 * s + 1 + 1) = 4 * ((s + 1) * (s + 1)) := by ring
        nlinarith
      · rw [if_neg hup]
        refine ⟨?_, by omega⟩
        have hr : (2 * s) * (2 * s) = 4 * (s * s) := by ring
        omega

theorem intSqrt_sq_le (n : ℕ) : intSqrt n * intSqrt n ≤ n :=
  (intSqrtAux_bounds n n le_rfl).1

theorem lt_intSqrt_succ_sq (n : ℕ) : n < (intSqrt n + 1) * (intSqrt n + 1) :=
  (intSqrtAux_bounds n n le_rfl).2

/-- Comparing the integer square root with a bound is the same as comparing
the radicand with the squared bound — the sense in which `intSqrt`-based
comparisons agree with the source's `Math.sqrt`-based ones. -/
theorem le_intSqrt_iff (t n : ℕ) : t ≤ intSqrt n ↔ t * t ≤ n := by
  constructor
  · intro h
    exact le_trans (Nat.mul_le_mul h h) (intSqrt_sq_le n)
  · intro h
    by_contra hlt
    push_neg at hlt
    have h2 : (intSqrt n + 1) * (intSqrt n + 1) ≤ t * t := Nat.mul_le_mul hlt hlt
    have := lt_intSqrt_succ_sq n
    omega

/-- Whether `c` is within distance `t` (strictly) of some already-kept color
(the inner `for existingColor of filteredColors` loop of
`filterSimilarColors`). -/
def isSimilarToAny (c : RGB) (kept : List RGB) (t : ℕ) : Bool :=
  kept.any (fun e => dist c e < t)

/-- Main loop of `filterSimilarColors`: walk the remaining candidates, keeping
the accumulated `filteredColors` list; a candidate is appended iff it is not
similar to any already-kept color. -/
def fscAux (t : ℕ) (kept : List RGB) : List RGB → List RGB
  | [] => kept
  | c :: cs =>
    if isSimilarToAny c kept t then fscAux t kept cs
    else fscAux t (kept ++ [c]) cs

/-- `filterSimilarColors` from `lib/utils` (`src/unnamed/part_003`): filters
out colors that are within `threshold` Euclidean distance of an
earlier-retained color. -/
def filterSimilarColors (colors : List RGB) (threshold : ℕ) : List RGB :=
  fscAux threshold [] colors

theorem diffAbs_comm (x y : ℕ) : diffAbs x y = diffAbs y x := by
  unfold diffAbs; omega

theorem distSq_comm (a b : RGB) : distSq a b = distSq b a := by
  unfold distSq; rw [diffAbs_comm a.1, diffAbs_comm a.2.1, diffAbs_comm a.2.2]

theorem dist_comm (a b : RGB) : dist a b = dist b a := by
  unfold dist; rw [distSq_comm]

/-- `fscAux` only ever appends to the kept list, and what it appends is a
sublist of the candidates. -/
theorem fscAux_append (t : ℕ) (cand : List RGB) :
    ∀ kept : List RGB, ∃ s, fscAux t kept cand = kept ++ s ∧ s.Sublist cand := by
  induction cand with
  | nil => intro kept; exact ⟨[], by simp [fscAux]⟩
  | cons c cs ih =>
    intro kept
    by_cases h : isSimilarToAny c kept t
    · obtain ⟨s, hs, hsub⟩ := ih kept
      exact ⟨s, by simpa [fscAux, h] using hs, hsub.cons c⟩
    · obtain ⟨s, hs, hsub⟩ := ih (kept ++ [c])
      refine ⟨c :: s, ?_, hsub.cons₂ c⟩
      simpa [fscAux, h] using hs

/-- `fscAux` preserves pairwise separation of the kept list. -/
theorem fscAux_pairwise (t : ℕ) (cand : List RGB) :
    ∀ kept : List RGB, kept.Pairwise (fun x y => t ≤ dist x y) →
      (fscAux t kept cand).Pairwise (fun x y => t ≤ dist x y) := by
  induction cand with
  | nil => intro kept h; simpa [fscAux] using h
  | cons c cs ih =>
    intro kept h
    by_cases hsim : isSimilarToAny c kept t
    · simpa [fscAux, hsim] using ih kept h
    · have hfar : ∀ e ∈ kept, t ≤ dist e c := by
        intro e he
        have h1 : ¬ dist c e < t := fun hlt =>
          hsim (by unfold isSimilarToAny
                   exact List.any_eq_true.mpr ⟨e, he, decide_eq_true hlt⟩)
        rw [dist_comm e c]; omega
      have hke : (kept ++ [c]).Pairwise (fun x y => t ≤ dist x y) := by
        rw [List.pairwise_append]
        exact ⟨h, by simp, by intro x hx y hy; simp at hy; subst hy; exact hfar x hx⟩
      simpa [fscAux, hsim] using ih (kept ++ [c]) hke

/-- Any candidate that is dropped by `fscAux` is within `t` of some color in
the final result. -/
theorem fscAux_dropped (t : ℕ) (cand : List RGB) :
    ∀ kept : List RGB, ∀ c ∈ cand, c ∉ fscAux t kept cand →
      ∃ e ∈ fscAux t kept cand, dist c e < t := by
  induction cand with
  | nil => intro kept c hc; simp at hc
  | cons d ds ih =>
    intro kept c hc hnot
    by_cases hsim : isSimilarToAny d kept t
    · rw [show fscAux t kept (d :: ds) = fscAux t kept ds from by
        simp [fscAux, hsim]] at hnot ⊢
      rcases List.mem_cons.mp hc with hcd | hcs
      · subst hcd
        unfold isSimilarToAny at hsim
        obtain ⟨e, he, hlt⟩ := List.any_eq_true.mp hsim
        obtain ⟨s, hs, _⟩ := fscAux_append t ds kept
        exact ⟨e, by rw [hs]; exact List.mem_append_left _ he, of_decide_eq_true hlt⟩
      · exact ih kept c hcs hnot
    · rw [show fscAux t kept (d :: ds) = fscAux t (kept ++ [d]) ds from by
        simp [fscAux, hsim]] at hnot ⊢
      rcases List.mem_cons.mp hc with hcd | hcs
      · subst hcd
        exfalso; apply hnot
        obtain ⟨s, hs, _⟩ := fscAux_append t ds (kept ++ [c])
        rw [hs]; simp
      · exact ih (kept ++ [d]) c hcs hnot

/-- C2: `filterSimilarColors` walks the candidates in input order, keeping a
candidate iff its Euclidean distance to every already-kept color is at least
the threshold. Consequently the output is a sublist of the input (first-seen
candidates of a similar group are the ones kept, in encounter order), every
two distinct retained colors are at least `threshold` apart, and every
rejected candidate is within `threshold` of some retained color. -/
theorem filterSimilarColors_spec (colors : List RGB) (threshold : ℕ) :
    (filterSimilarColors colors threshold).Sublist colors ∧
    (∀ x ∈ filterSimilarColors colors threshold,
      ∀ y ∈ filterSimilarColors colors threshold, x ≠ y → threshold ≤ dist x y) ∧
    (∀ c ∈ colors, c ∉ filterSimilarColors colors threshold →
      ∃ e ∈ filterSimilarColors colors threshold, dist c e < threshold) := by
  refine ⟨?_, ?_, ?_⟩
  · obtain ⟨s, hs, hsub⟩ := fscAux_append threshold colors []
    rw [filterSimilarColors, hs]; simpa using hsub
  · have hp := fscAux_pairwise threshold colors [] (by simp)
    intro x hx y hy hxy
    exact List.Pairwise.forall (fun a b h => by rw [dist_comm]; exact h) hp hx hy hxy
  · exact fscAux_dropped threshold colors []

/-- Witness for C2 at a concrete input: with candidates
`[(0,0,0), (5,0,0), (100,0,0)]` and threshold 10, the retained list is a
sublist of the input, the two distinct retained colors `(0,0,0)` and
`(100,0,0)` are at least 10 apart, and the rejected candidate `(5,0,0)` is
within 10 of some retained color. -/
theorem filterSimilarColors_spec_witness :
    (filterSimilarColors [(0, 0, 0), (5, 0, 0), (100, 0, 0)] 10).Sublist
      [(0, 0, 0), (5, 0, 0), (100, 0, 0)] ∧
    10 ≤ dist (0, 0, 0) (100, 0, 0) ∧
    (∃ e ∈ filterSimilarColors [(0, 0, 0), (5, 0, 0), (100, 0, 0)] 10,
      dist (5, 0, 0) e < 10) := by
  have h := filterSimilarColors_spec [(0, 0, 0), (5, 0, 0), (100, 0, 0)] 10
  refine ⟨h.1, ?_, ?_⟩
  · exact h.2.1 (0, 0, 0) (by decide) (100, 0, 0) (by decide) (by decide)
  · exact h.2.2 (5, 0, 0) (by decide) (by decide)

/-! ### K-means clustering (`kMeans` in `quantization.ts`) -/

/-- Inner argmin loop of `kMeans`'s assignment step: scan the remaining
centroids (at index `i` onward), keeping the index `best` of the smallest
squared distance seen so far (`bestD`); only a strictly smaller distance
replaces the current best, so ties go to the lowest index. -/
def closestAux (p : RGB) : List RGB → ℕ → ℕ → ℕ → ℕ
  | [], _, best, _ => best
  | c :: cs, i, best, bestD =>
    if distSq p c < bestD then closestAux p cs (i + 1) i (distSq p c)
    else closestAux p cs (i + 1) best bestD

/-- Index of the closest centroid to `p` (the `minDist`/`closestIndex` loop of
`kMeans`; `minDist` starts at `Infinity`, so the first centroid always becomes
the initial best). -/
def closestIndex (cs : List RGB) (p : RGB) : ℕ :=
  match cs with
  | [] => 0
  | c :: rest => closestAux p rest 1 0 (distSq p c)

/-- The cluster assigned to centroid `i`: the pixels (in input order) whose
closest centroid has index `i`. -/
def clusterOf (cs pixels : List RGB) (i : ℕ) : List RGB :=
  pixels.filter (fun p => closestIndex cs p == i)

/-- Component-wise rounded arithmetic mean of a cluster.
`Math.round(sum / n)` for naturals equals `(2 * sum + n) / (2 * n)` in
natural-number division. -/
def roundedMean (cl : List RGB) : RGB :=
  ((2 * (cl.map (fun p => p.1)).sum + cl.length) / (2 * cl.length),
   (2 * (cl.map (fun p => p.2.1)).sum + cl.length) / (2 * cl.length),
   (2 * (cl.map (fun p => p.2.2)).sum + cl.length) / (2 * cl.length))

/-- Centroid-update loop of one `kMeans` iteration: centroid `i` is replaced
by the rounded mean of its cluster, or left unchanged if the cluster is
empty. `i` is the index of the head of `l` within the full centroid list
`cs`. -/
def stepAux (pixels cs : List RGB) : ℕ → List RGB → List RGB
  | _, [] => []
  | i, c :: rest =>
    (if (clusterOf cs pixels i).isEmpty then c else roundedMean (clusterOf cs pixels i)) ::
      stepAux pixels cs (i + 1) rest

/-- One full `kMeans` iteration: assign every pixel to its closest centroid,
then recompute each centroid from its cluster. -/
def kmeansStep (pixels cs : List RGB) : List RGB := stepAux pixels cs 0 cs

/-- The `for (iter = 0; iter < MAX_ITERATIONS; iter++)` loop of `kMeans`:
run up to `fuel` iterations, stopping early as soon as an iteration changes
no centroid (the `converged` flag). -/
def kmeansLoop (pixels : List RGB) : ℕ → List RGB → List RGB
  | 0, cs => cs
  | fuel + 1, cs =>
    if kmeansStep pixels cs = cs then cs
    else kmeansLoop pixels fuel (kmeansStep pixels cs)

/-- `kMeans` from `quantization.ts`: empty input returns `[]`; otherwise the
centroids are seeded with copies of the first `k` pixels and iterated at most
`MAX_ITERATIONS = 10` times. The trailing `centroids.filter(Boolean)` of the
source is the identity here: the centroid list never contains holes. -/
def kMeans (pixels : List RGB) (k : ℕ) : List RGB :=
  if pixels.isEmpty then [] else kmeansLoop pixels 10 (pixels.take k)

theorem stepAux_length (pixels cs : List RGB) :
    ∀ i l, (stepAux pixels cs i l).length = l.length := by
  intro i l
  induction l generalizing i with
  | nil => rfl
  | cons c rest ih => simp [stepAux, ih]

theorem kmeansStep_length (pixels cs : List RGB) :
    (kmeansStep pixels cs).length = cs.length := stepAux_length pixels cs 0 cs

theorem kmeansLoop_length (pixels : List RGB) :
    ∀ fuel cs, (kmeansLoop pixels fuel cs).length = cs.length := by
  intro fuel
  induction fuel with
  | zero => intro cs; rfl
  | succ fuel ih =>
    intro cs
    unfold kmeansLoop
    by_cases h : kmeansStep pixels cs = cs
    · rw [if_pos h]
    · rw [if_neg h, ih, kmeansStep_length]

/-- The length of the `kMeans` output is exactly `min k pixels.length`. -/
theorem kMeans_length (pixels : List RGB) (k : ℕ) :
    (kMeans pixels k).length = min k pixels.length := by
  unfold kMeans
  by_cases h : pixels.isEmpty
  · rw [if_pos h]
    have : pixels = [] := List.isEmpty_iff.mp h
    simp [this]
  · rw [if_neg h, kmeansLoop_length, List.length_take]

/-- A centroid is `good` if it is a copy of an input pixel or the rounded
mean of a non-empty collection of input pixels. -/
def GoodCentroid (pixels : List RGB) (c : RGB) : Prop :=
  c ∈ pixels ∨ ∃ cl : List RGB, cl ≠ [] ∧ (∀ p ∈ cl, p ∈ pixels) ∧ c = roundedMean cl

theorem stepAux_good (pixels cs : List RGB) :
    ∀ i l, (∀ c ∈ l, GoodCentroid pixels c) →
      ∀ c ∈ stepAux pixels cs i l, GoodCentroid pixels c := by
  intro i l
  induction l generalizing i with
  | nil => intro _ c hc; simp [stepAux] at hc
  | cons d rest ih =>
    intro hl c hc
    unfold stepAux at hc
    rcases List.mem_cons.mp hc with hhd | htl
    · by_cases hemp : (clusterOf cs pixels i).isEmpty
      · rw [if_pos hemp] at hhd
        exact hhd ▸ hl d (by simp)
      · rw [if_neg hemp] at hhd
        refine Or.inr ⟨clusterOf cs pixels i, ?_, ?_, hhd⟩
        · exact fun he => hemp (by simp [he])
        · intro p hp
          exact List.mem_of_mem_filter hp
    · exact ih (i + 1) (fun c' hc' => hl c' (by simp [hc'])) c htl

theorem kmeansLoop_good (pixels : List RGB) :
    ∀ fuel cs, (∀ c ∈ cs, GoodCentroid pixels c) →
      ∀ c ∈ kmeansLoop pixels fuel cs, GoodCentroid pixels c := by
  intro fuel
  induction fuel with
  | zero => intro cs h; exact h
  | succ fuel ih =>
    intro cs h
    unfold kmeansLoop
    by_cases hc : kmeansStep pixels cs = cs
    · rw [if_pos hc]; exact h
    · rw [if_neg hc]
      exact ih (kmeansStep pixels cs) (stepAux_good pixels cs 0 cs h)

/-- Every centroid returned by `kMeans` is an input pixel or the rounded mean
of a non-empty collection of input pixels. -/
theorem kMeans_good (pixels : List RGB) (k : ℕ) :
    ∀ c ∈ kMeans pixels k, GoodCentroid pixels c := by
  unfold kMeans
  by_cases h : pixels.isEmpty
  · rw [if_pos h]; intro c hc; simp at hc
  · rw [if_neg h]
    exact kmeansLoop_good pixels 10 (pixels.take k)
      (fun c hc => Or.inl (List.mem_of_mem_take hc))

/-- C1 counterexample: for the six-pixel input below there are 3 distinct
points and `k = 4 > 3`, yet `kMeans` returns 4 centroids — more than the
number of distinct input points — and one of them, `(220, 0, 0)`, is a color
that occurs nowhere in the input (it is the rounded mean of `(200,0,0)` and
`(240,0,0)`). -/
theorem kMeans_distinct_counterexample :
    ([(0, 0, 0), (0, 0, 0), (0, 0, 0), (0, 0, 0), (200, 0, 0),
        (240, 0, 0)] : List RGB).dedup.length < 4 ∧
    ¬ ((kMeans [(0, 0, 0), (0, 0, 0), (0, 0, 0), (0, 0, 0), (200, 0, 0),
          (240, 0, 0)] 4).length ≤
        ([(0, 0, 0), (0, 0, 0), (0, 0, 0), (0, 0, 0), (200, 0, 0),
            (240, 0, 0)] : List RGB).dedup.length ∧
       ∀ c ∈ kMeans [(0, 0, 0), (0, 0, 0), (0, 0, 0), (0, 0, 0), (200, 0, 0),
          (240, 0, 0)] 4,
         c ∈ ([(0, 0, 0), (0, 0, 0), (0, 0, 0), (0, 0, 0), (200, 0, 0),
            (240, 0, 0)] : List RGB)) := by
  decide

/-- C1 (amended): for every input point list and every `k` greater than the
number of distinct input points, `kMeans` returns at most as many centroids
as there are input points (counting duplicates), and every returned centroid
is either a copy of an input point or the component-wise rounded arithmetic
mean of a non-empty collection of input points. -/
theorem kMeans_output_bound (pixels : List RGB) (k : ℕ)
    (hk : pixels.dedup.length < k) :
    (kMeans pixels k).length ≤ pixels.length ∧
    ∀ c ∈ kMeans pixels k, GoodCentroid pixels c :=
  ⟨by rw [kMeans_length]; omega, kMeans_good pixels k⟩

/-- Witness for the amended C1 at the counterexample input itself. -/
theorem kMeans_output_bound_witness :
    (kMeans [(0, 0, 0), (0, 0, 0), (0, 0, 0), (0, 0, 0), (200, 0, 0),
        (240, 0, 0)] 4).length ≤
      ([(0, 0, 0), (0, 0, 0), (0, 0, 0), (0, 0, 0), (200, 0, 0),
          (240, 0, 0)] : List RGB).length ∧
    ∀ c ∈ kMeans [(0, 0, 0), (0, 0, 0), (0, 0, 0), (0, 0, 0), (200, 0, 0),
        (240, 0, 0)] 4,
      GoodCentroid
        [(0, 0, 0), (0, 0, 0), (0, 0, 0), (0, 0, 0), (200, 0, 0), (240, 0, 0)] c :=
  kMeans_output_bound
    [(0, 0, 0), (0, 0, 0), (0, 0, 0), (0, 0, 0), (200, 0, 0), (240, 0, 0)] 4
    (by decide)

theorem list_sum_le_mul (l : List ℕ) (n : ℕ) (h : ∀ x ∈ l, x ≤ n) :
    l.sum ≤ n * l.length := by
  induction l with
  | nil => simp
  | cons x xs ih =>
    have hx := h x (by simp)
    have hxs := ih (fun y hy => h y (by simp [hy]))
    simp only [List.sum_cons, List.length_cons]
    nlinarith

/-- The rounded mean of a non-empty cluster whose channels are all at most
255 has channels at most 255. -/
theorem roundedMean_le (cl : List RGB) (hne : cl ≠ [])
    (h : ∀ p ∈ cl, p.1 ≤ 255 ∧ p.2.1 ≤ 255 ∧ p.2.2 ≤ 255) :
    (roundedMean cl).1 ≤ 255 ∧ (roundedMean cl).2.1 ≤ 255 ∧
      (roundedMean cl).2.2 ≤ 255 := by
  have hlen : 1 ≤ cl.length := by
    cases cl with
    | nil => exact absurd rfl hne
    | cons a l => simp
  have key : ∀ f : RGB → ℕ, (∀ p ∈ cl, f p ≤ 255) →
      (2 * (cl.map f).sum + cl.length) / (2 * cl.length) ≤ 255 := by
    intro f hf
    have hsum : (cl.map f).sum ≤ 255 * cl.length := by
      have := list_sum_le_mul (cl.map f) 255 (by
        intro x hx
        obtain ⟨p, hp, hfp⟩ := List.mem_map.mp hx
        exact hfp ▸ hf p hp)
      simpa using this
    have hlt : (2 * (cl.map f).sum + cl.length) / (2 * cl.length) < 256 := by
      rw [Nat.div_lt_iff_lt_mul (by omega)]
      omega
    omega
  exact ⟨key (fun p => p.1) (fun p hp => (h p hp).1),
    key (fun p => p.2.1) (fun p hp => (h p hp).2.1),
    key (fun p => p.2.2) (fun p hp => (h p hp).2.2)⟩

/-- C9: for a non-empty input list whose points all have channels in
`[0, 255]` and any `k ≥ 1`, every centroid returned by `kMeans` has all three
channels in `[0, 255]` (channels are naturals, so only the upper bound is
stated). -/
theorem kMeans_channels_bounded (pixels : List RGB) (k : ℕ)
    (hne : pixels ≠ []) (hk : 1 ≤ k)
    (hb : ∀ p ∈ pixels, p.1 ≤ 255 ∧ p.2.1 ≤ 255 ∧ p.2.2 ≤ 255) :
    ∀ c ∈ kMeans pixels k, c.1 ≤ 255 ∧ c.2.1 ≤ 255 ∧ c.2.2 ≤ 255 := by
  intro c hc
  rcases kMeans_good pixels k c hc with hmem | ⟨cl, hclne, hcl, hmean⟩
  · exact hb c hmem
  · exact hmean ▸ roundedMean_le cl hclne (fun p hp => hb p (hcl p hp))

/-- Witness for C9 at a concrete input: the centroid `(5, 138, 15)` (the
rounded mean of `(0,255,0)` and `(10,20,30)`) produced by `kMeans` on a
three-pixel input has all channels in `[0, 255]`. -/
theorem kMeans_channels_bounded_witness :
    ((5, 138, 15) : RGB).1 ≤ 255 ∧ ((5, 138, 15) : RGB).2.1 ≤ 255 ∧
      ((5, 138, 15) : RGB).2.2 ≤ 255 :=
  kMeans_channels_bounded [(255, 0, 0), (0, 255, 0), (10, 20, 30)] 2
    (by decide) (by decide) (by decide) (5, 138, 15) (by decide)

/-! ### The quantization pipeline (`quantize` in `quantization.ts`) -/

/-- `MAX_SAMPLE_SIZE` from `quantization.ts`. -/
def sampleCap : ℕ := 2000

/-- `ALPHA_THRESHOLD` from `quantization.ts`. -/
def alphaThreshold : ℕ := 16

/-- The pixel-collection loop of `quantize`:
`for (i = 0; i <= data.length - 4; i += 4)` reads complete 4-byte RGBA
groups, skips pixels with alpha below `ALPHA_THRESHOLD`, and projects the
rest to RGB triples in encounter order. A trailing group of fewer than 4
bytes is never read. -/
def collectPixels : List ℕ → List RGB
  | r :: g :: b :: a :: rest =>
    if a < alphaThreshold then collectPixels rest
    else (r, g, b) :: collectPixels rest
  | _ => []

/-- Exchange the elements at positions `i` and `j` (the three-statement swap
inside `shuffle`); out-of-range indices leave the list unchanged (never hit
by `shuffle`). -/
def swapL (l : List RGB) (i j : ℕ) : List RGB :=
  match l[i]?, l[j]? with
  | some x, some y => (l.set i y).set j x
  | _, _ => l

/-- The `for (i = copy.length - 1; i > 0; i--)` loop of `shuffle`: at index
`i` the source draws `j = Math.floor(Math.random() * (i + 1)) ∈ [0, i]`,
modelled by the clamped oracle value `min (rand i) i`, and swaps positions
`i` and `j`. -/
def shuffleAux (rand : ℕ → ℕ) : ℕ → List RGB → List RGB
  | 0, l => l
  | i + 1, l => shuffleAux rand i (swapL l (i + 1) (min (rand (i + 1)) (i + 1)))

/-- Fisher–Yates `shuffle` from `quantization.ts`, parameterized by the
random oracle `rand`. -/
def shuffle (rand : ℕ → ℕ) (l : List RGB) : List RGB :=
  shuffleAux rand (l.length - 1) l

/-- The sampling step of `quantize`: if more than `MAX_SAMPLE_SIZE` pixels
are visible, shuffle them and truncate to the cap; otherwise pass the full
visible set through unchanged. -/
def sample (rand : ℕ → ℕ) (pixels : List RGB) : List RGB :=
  if sampleCap < pixels.length then (shuffle rand pixels).take sampleCap
  else pixels

/-- `quantize` from `quantization.ts`: collect visible pixels, short-circuit
to the empty palette when none is visible, otherwise sample, cluster with
`kMeans`, and de-duplicate with `filterSimilarColors`. -/
def quantize (rand : ℕ → ℕ) (data : List ℕ) (maxColors threshold : ℕ) :
    List RGB :=
  if (collectPixels data).isEmpty then []
  else
    filterSimilarColors (kMeans (sample rand (collectPixels data)) maxColors)
      threshold

theorem swapL_length (l : List RGB) (i j : ℕ) :
    (swapL l i j).length = l.length := by
  unfold swapL
  cases hi : l[i]? <;> cases hj : l[j]? <;> simp

theorem shuffleAux_length (rand : ℕ → ℕ) :
    ∀ i l, (shuffleAux rand i l).length = l.length := by
  intro i
  induction i with
  | zero => intro l; rfl
  | succ i ih =>
    intro l
    unfold shuffleAux
    rw [ih, swapL_length]

theorem shuffle_length (rand : ℕ → ℕ) (l : List RGB) :
    (shuffle rand l).length = l.length := shuffleAux_length rand (l.length - 1) l

theorem get_cons_set_perm :
    ∀ (xs : List RGB) (m : ℕ) (h : m < xs.length) (x : RGB),
      (xs.get ⟨m, h⟩ :: xs.set m x).Perm (x :: xs) := by
  intro xs
  induction xs with
  | nil => intro m h x; simp at h
  | cons y ys ih =>
    intro m h x
    cases m with
    | zero => simpa using List.Perm.swap x y ys
    | succ m =>
      have hm : m < ys.length := by simpa using h
      show (ys.get ⟨m, hm⟩ :: y :: ys.set m x).Perm (x :: y :: ys)
      exact ((List.Perm.swap y (ys.get ⟨m, hm⟩) (ys.set m x)).trans
        (List.Perm.cons y (ih m hm x))).trans (List.Perm.swap x y ys)

theorem set_set_swap_perm :
    ∀ (l : List RGB) (i j : ℕ) (hi : i < l.length) (hj : j < l.length),
      ((l.set i (l.get ⟨j, hj⟩)).set j (l.get ⟨i, hi⟩)).Perm l := by
  intro l
  induction l with
  | nil => intro i j hi hj; simp at hi
  | cons a as ih =>
    intro i j hi hj
    cases i with
    | zero =>
      cases j with
      | zero => simp
      | succ m =>
        have hm : m < as.length := by simpa using hj
        show (as.get ⟨m, hm⟩ :: as.set m a).Perm (a :: as)
        exact get_cons_set_perm as m hm a
    | succ n =>
      have hn : n < as.length := by simpa using hi
      cases j with
      | zero =>
        show (as.get ⟨n, hn⟩ :: as.set n a).Perm (a :: as)
        exact get_cons_set_perm as n hn a
      | succ m =>
        have hm : m < as.length := by simpa using hj
        show (a :: (as.set n (as.get ⟨m, hm⟩)).set m (as.get ⟨n, hn⟩)).Perm (a :: as)
        exact List.Perm.cons a (ih n m hn hm)

/-- Swapping two positions permutes the list. -/
theorem swapL_perm (l : List RGB) (i j : ℕ) : (swapL l i j).Perm l := by
  unfold swapL
  cases hi : l[i]? with
  | none => exact List.Perm.refl l
  | some x =>
    cases hj : l[j]? with
    | none => exact List.Perm.refl l
    | some y =>
      have hi' : i < l.length := by
        by_contra h
        rw [List.getElem?_eq_none (by omega)] at hi
        exact Option.noConfusion hi
      have hj' : j < l.length := by
        by_contra h
        rw [List.getElem?_eq_none (by omega)] at hj
        exact Option.noConfusion hj
      have hx : x = l.get ⟨i, hi'⟩ := by
        rw [List.getElem?_eq_getElem hi'] at hi
        exact (Option.some.inj hi).symm
      have hy : y = l.get ⟨j, hj'⟩ := by
        rw [List.getElem?_eq_getElem hj'] at hj
        exact (Option.some.inj hj).symm
      subst hx hy
      exact set_set_swap_perm l i j hi' hj'

theorem shuffleAux_perm (rand : ℕ → ℕ) :
    ∀ i l, (shuffleAux rand i l).Perm l := by
  intro i
  induction i with
  | zero => intro l; exact List.Perm.refl l
  | succ i ih =>
    intro l
    unfold shuffleAux
    exact List.Perm.trans (ih _) (swapL_perm l (i + 1) (min (rand (i + 1)) (i + 1)))

/-- The shuffled list is a permutation of the visible set. -/
theorem shuffle_perm (rand : ℕ → ℕ) (l : List RGB) : (shuffle rand l).Perm l :=
  shuffleAux_perm rand (l.length - 1) l

/-- C5: the point set `quantize` passes to clustering never exceeds the
sample cap (2000): the shuffled list is a permutation of the visible set;
when the visible count exceeds the cap the sampler output is the shuffled
visible set truncated to exactly the cap; otherwise it is the full visible
set, unshuffled and in encounter order. -/
theorem sample_spec (rand : ℕ → ℕ) (data : List ℕ) :
    (sample rand (collectPixels data)).length ≤ sampleCap ∧
    (shuffle rand (collectPixels data)).Perm (collectPixels data) ∧
    (sampleCap < (collectPixels data).length →
      sample rand (collectPixels data) =
        (shuffle rand (collectPixels data)).take sampleCap ∧
      (sample rand (collectPixels data)).length = sampleCap) ∧
    ((collectPixels data).length ≤ sampleCap →
      sample rand (collectPixels data) = collectPixels data) := by
  refine ⟨?_, shuffle_perm rand (collectPixels data), ?_, ?_⟩
  · unfold sample
    by_cases h : sampleCap < (collectPixels data).length
    · rw [if_pos h, List.length_take]; omega
    · rw [if_neg h]; omega
  · intro h
    refine ⟨by rw [sample, if_pos h], ?_⟩
    rw [sample, if_pos h, List.length_take, shuffle_length]
    omega
  · intro h
    rw [sample, if_neg (by omega)]

/-- Witness for C5 at a concrete buffer with one visible pixel (below the
cap, so the sampler is the identity). -/
theorem sample_spec_witness :
    (sample (fun _ => 0) (collectPixels [1, 2, 3, 255])).length ≤ sampleCap ∧
    sample (fun _ => 0) (collectPixels [1, 2, 3, 255]) =
      collectPixels [1, 2, 3, 255] := by
  have h := sample_spec (fun _ => 0) [1, 2, 3, 255]
  exact ⟨h.1, h.2.2.2 (by decide)⟩

theorem collectPixels_short (l : List ℕ) (h : l.length < 4) :
    collectPixels l = [] :=
  match l with
  | [] => rfl
  | [_] => rfl
  | [_, _] => rfl
  | [_, _, _] => rfl
  | _ :: _ :: _ :: _ :: _ => by
    exfalso
    simp only [List.length_cons] at h
    omega

theorem collectPixels_eq_nil (data : List ℕ)
    (h : ∀ i < data.length / 4, data.getD (4 * i + 3) 0 < alphaThreshold) :
    collectPixels data = [] :=
  match data with
  | [] => rfl
  | [_] => rfl
  | [_, _] => rfl
  | [_, _, _] => rfl
  | r :: g :: b :: a :: rest => by
    have ha : a < alphaThreshold := by
      have h0 := h 0 (by simp only [List.length_cons]; omega)
      simpa using h0
    rw [show collectPixels (r :: g :: b :: a :: rest) = collectPixels rest from by
      simp [collectPixels, ha]]
    refine collectPixels_eq_nil rest (fun i hi => ?_)
    have h2 := h (i + 1) (by simp only [List.length_cons]; omega)
    have hidx : 4 * (i + 1) + 3 = 4 * i + 3 + 4 := by ring
    rw [hidx] at h2
    exact h2

/-- C3: if no pixel of the buffer has alpha at least 16 (byte `4*i + 3` of
every complete RGBA group is below the threshold), the visible set is empty
and `quantize` returns the empty palette, for every `maxColors` and
`threshold`; the empty-pixel check short-circuits before clustering. -/
theorem quantize_transparent (rand : ℕ → ℕ) (maxColors threshold : ℕ)
    (data : List ℕ)
    (halpha : ∀ i < data.length / 4, data.getD (4 * i + 3) 0 < alphaThreshold) :
    collectPixels data = [] ∧ quantize rand data maxColors threshold = [] := by
  have hcp := collectPixels_eq_nil data halpha
  exact ⟨hcp, by rw [quantize, hcp]; rfl⟩

/-- Witness for C3 on a concrete all-transparent buffer. -/
theorem quantize_transparent_witness :
    collectPixels [7, 8, 9, 0, 1, 2, 3, 15] = [] ∧
    quantize (fun _ => 0) [7, 8, 9, 0, 1, 2, 3, 15] 5 10 = [] :=
  quantize_transparent (fun _ => 0) 5 10 [7, 8, 9, 0, 1, 2, 3, 15] (by decide)

theorem roundedMean_single (p : RGB) : roundedMean [p] = p := by
  unfold roundedMean
  simp only [List.map_cons, List.map_nil, List.sum_cons, List.sum_nil,
    List.length_cons, List.length_nil]
  refine Prod.ext ?_ (Prod.ext ?_ ?_) <;> simp <;> omega

theorem kmeansStep_single (p : RGB) : kmeansStep [p] [p] = [p] := by
  have hclo : closestIndex [p] p = 0 := rfl
  have hcl : clusterOf [p] [p] 0 = [p] := by
    simp [clusterOf, hclo]
  rw [kmeansStep, stepAux, hcl]
  simp [stepAux, roundedMean_single]

theorem kMeans_single (p : RGB) (k : ℕ) (hk : 1 ≤ k) : kMeans [p] k = [p] := by
  have htake : ([p] : List RGB).take k = [p] := by
    cases k with
    | zero => omega
    | succ k => simp
  rw [kMeans, show ([p] : List RGB).isEmpty = false from rfl]
  simp only [Bool.false_eq_true, if_false, htake]
  rw [kmeansLoop, if_pos (kmeansStep_single p)]

theorem filterSimilarColors_single (p : RGB) (t : ℕ) :
    filterSimilarColors [p] t = [p] := by
  rw [filterSimilarColors, fscAux,
    show isSimilarToAny p [] t = false from rfl]
  simp [fscAux]

/-- C4: a buffer whose visible-pixel extraction yields exactly one pixel `p`
quantizes, for every `maxColors ≥ 1` and every threshold, to the palette
containing exactly that pixel's RGB triple. -/
theorem quantize_single (rand : ℕ → ℕ) (data : List ℕ) (p : RGB)
    (maxColors threshold : ℕ) (hone : collectPixels data = [p])
    (hk : 1 ≤ maxColors) :
    quantize rand data maxColors threshold = [p] := by
  rw [quantize, hone]
  rw [show ([p] : List RGB).isEmpty = false from rfl]
  simp only [Bool.false_eq_true, if_false]
  rw [show sample rand [p] = [p] from by rw [sample, if_neg (by simp [sampleCap])]]
  rw [kMeans_single p maxColors hk, filterSimilarColors_single]

/-- Witness for C4 on a concrete one-visible-pixel buffer. -/
theorem quantize_single_witness :
    quantize (fun _ => 0) [10, 20, 30, 255] 1 10 = [(10, 20, 30)] :=
  quantize_single (fun _ => 0) [10, 20, 30, 255] (10, 20, 30) 1 10
    (by decide) (by decide)

theorem collectPixels_append (data extra : List ℕ) (h4 : data.length % 4 = 0)
    (hlt : extra.length < 4) :
    collectPixels (data ++ extra) = collectPixels data :=
  match data with
  | [] => collectPixels_short extra hlt
  | [_] => by simp at h4
  | [_, _] => by simp at h4
  | [_, _, _] => by simp at h4
  | r :: g :: b :: a :: rest => by
    have h4' : rest.length % 4 = 0 := by
      simp only [List.length_cons] at h4
      omega
    by_cases ha : a < alphaThreshold
    · rw [show collectPixels ((r :: g :: b :: a :: rest) ++ extra) =
          collectPixels (rest ++ extra) from by simp [collectPixels, ha],
        show collectPixels (r :: g :: b :: a :: rest) = collectPixels rest from by
          simp [collectPixels, ha]]
      exact collectPixels_append rest extra h4' hlt
    · rw [show collectPixels ((r :: g :: b :: a :: rest) ++ extra) =
          (r, g, b) :: collectPixels (rest ++ extra) from by simp [collectPixels, ha],
        show collectPixels (r :: g :: b :: a :: rest) =
          (r, g, b) :: collectPixels rest from by simp [collectPixels, ha]]
      rw [collectPixels_append rest extra h4' hlt]

/-- C10: appending 1–3 trailing bytes to a complete RGBA buffer changes
nothing: the pixel loop only reads complete 4-byte groups, so the trailing
bytes contribute no pixel and `quantize` returns the same palette without
error. -/
theorem quantize_trailing_bytes (rand : ℕ → ℕ) (maxColors threshold : ℕ)
    (data extra : List ℕ) (h4 : data.length % 4 = 0) (hlt : extra.length < 4) :
    collectPixels (data ++ extra) = collectPixels data ∧
    quantize rand (data ++ extra) maxColors threshold =
      quantize rand data maxColors threshold := by
  have hcp := collectPixels_append data extra h4 hlt
  exact ⟨hcp, by rw [quantize, hcp, quantize]⟩

/-- Witness for C10: two trailing bytes after one opaque red pixel are
ignored. -/
theorem quantize_trailing_bytes_witness :
    collectPixels ([255, 0, 0, 255] ++ [9, 9]) = collectPixels [255, 0, 0, 255] ∧
    quantize (fun _ => 0) ([255, 0, 0, 255] ++ [9, 9]) 2 10 =
      quantize (fun _ => 0) [255, 0, 0, 255] 2 10 :=
  quantize_trailing_bytes (fun _ => 0) 2 10 [255, 0, 0, 255] [9, 9]
    (by decide) (by decide)

/-! ### Color space conversion (`convert.ts`) -/

/-- The sixteen lowercase hexadecimal digit characters, in value order. -/
def hexDigits : List Char := "0123456789abcdef".toList

/-- The hexadecimal digit character for value `n < 16`. -/
def hexDigit (n : ℕ) : Char := hexDigits.getD n '0'

/-- `toHexChannel` from `rgbToHex` in `convert.ts`: for a natural channel
value `x`, `Math.round(x)` is the identity, `clamp01(x / 255) * 255` clamps
to `min x 255 ≤ 255`, and `toString(16).padStart(2, '0')` renders a value
below 256 as exactly two lowercase hex digits. -/
def toHexChannel (x : ℕ) : String :=
  String.mk [hexDigit (min x 255 / 16), hexDigit (min x 255 % 16)]

/-- `rgbToHex` from `convert.ts`: `#` followed by the three channel pairs. -/
def rgbToHex (c : RGB) : String :=
  "#" ++ toHexChannel c.1 ++ toHexChannel c.2.1 ++ toHexChannel c.2.2

theorem hexDigit_mem : ∀ n < 16, hexDigit n ∈ hexDigits := by decide

theorem hexDigit_val : ∀ n < 16, hexDigits.indexOf (hexDigit n) = n := by decide

/-- C7: for channels in `[0, 255]`, `rgbToHex` produces `#` followed by six
lowercase hexadecimal digits, and interpreting each 2-digit pair as a base-16
numeral recovers exactly the corresponding input channel. -/
theorem rgbToHex_spec (r g b : ℕ) (hr : r ≤ 255) (hg : g ≤ 255) (hb : b ≤ 255) :
    ∃ c1 c2 c3 c4 c5 c6 : Char,
      rgbToHex (r, g, b) = String.mk ['#', c1, c2, c3, c4, c5, c6] ∧
      (∀ c ∈ [c1, c2, c3, c4, c5, c6], c ∈ hexDigits) ∧
      16 * hexDigits.indexOf c1 + hexDigits.indexOf c2 = r ∧
      16 * hexDigits.indexOf c3 + hexDigits.indexOf c4 = g ∧
      16 * hexDigits.indexOf c5 + hexDigits.indexOf c6 = b := by
  refine ⟨hexDigit (r / 16), hexDigit (r % 16), hexDigit (g / 16),
    hexDigit (g % 16), hexDigit (b / 16), hexDigit (b % 16), ?_, ?_, ?_, ?_, ?_⟩
  · rw [rgbToHex]
    show ("#" ++ toHexChannel r ++ toHexChannel g ++ toHexChannel b) = _
    rw [toHexChannel, toHexChannel, toHexChannel,
      Nat.min_eq_left hr, Nat.min_eq_left hg, Nat.min_eq_left hb]
    rfl
  · intro c hc
    simp only [List.mem_cons, List.not_mem_nil, or_false] at hc
    rcases hc with h | h | h | h | h | h <;> subst h <;>
      exact hexDigit_mem _ (by omega)
  · rw [hexDigit_val (r / 16) (by omega), hexDigit_val (r % 16) (by omega)]
    omega
  · rw [hexDigit_val (g / 16) (by omega), hexDigit_val (g % 16) (by omega)]
    omega
  · rw [hexDigit_val (b / 16) (by omega), hexDigit_val (b % 16) (by omega)]
    omega

/-- Witness for C7 at the channel triple `(255, 204, 0)` (the `#ffcc00`
docstring example). -/
theorem rgbToHex_spec_witness :
    ∃ c1 c2 c3 c4 c5 c6 : Char,
      rgbToHex (255, 204, 0) = String.mk ['#', c1, c2, c3, c4, c5, c6] ∧
      (∀ c ∈ [c1, c2, c3, c4, c5, c6], c ∈ hexDigits) ∧
      16 * hexDigits.indexOf c1 + hexDigits.indexOf c2 = 255 ∧
      16 * hexDigits.indexOf c3 + hexDigits.indexOf c4 = 204 ∧
      16 * hexDigits.indexOf c5 + hexDigits.indexOf c6 = 0 :=
  rgbToHex_spec 255 204 0 (by decide) (by decide) (by decide)

/-- `clamp01` from `convert.ts`. -/
def clamp01 (q : ℚ) : ℚ := if q < 0 then 0 else if 1 < q then 1 else q

/-- `Math.round` on rationals: JavaScript rounds half toward positive
infinity, i.e. `Math.round(x) = ⌊x + 1/2⌋`. -/
def jsRound (q : ℚ) : ℤ := ⌊q + 1 / 2⌋

/-- A channel normalized to `[0, 1]`: `clamp01(x / 255)` in `rgbToHsl`. -/
def chan01 (n : ℕ) : ℚ := clamp01 ((n : ℚ) / 255)

/-- `max` of the three normalized channels in `rgbToHsl`. -/
def hslMax (c : RGB) : ℚ := max (chan01 c.1) (max (chan01 c.2.1) (chan01 c.2.2))

/-- `min` of the three normalized channels in `rgbToHsl`. -/
def hslMin (c : RGB) : ℚ := min (chan01 c.1) (min (chan01 c.2.1) (chan01 c.2.2))

/-- `delta = max - min` in `rgbToHsl`. -/
def hslDelta (c : RGB) : ℚ := hslMax c - hslMin c

/-- The raw hue of `rgbToHsl` in degrees: 0 when `delta = 0`, otherwise the
branch on which channel attains the maximum (`===` comparisons in source
order). -/
def hslHue (c : RGB) : ℚ :=
  if hslDelta c = 0 then 0
  else if hslMax c = chan01 c.1 then
    ((chan01 c.2.1 - chan01 c.2.2) / hslDelta c +
      if chan01 c.2.1 < chan01 c.2.2 then 6 else 0) * 60
  else if hslMax c = chan01 c.2.1 then
    ((chan01 c.2.2 - chan01 c.1) / hslDelta c + 2) * 60
  else ((chan01 c.1 - chan01 c.2.1) / hslDelta c + 4) * 60

/-- `lightness = (max + min) / 2` in `rgbToHsl`. -/
def hslLightness (c : RGB) : ℚ := (hslMax c + hslMin c) / 2

/-- `saturation` in `rgbToHsl`: 0 when `delta = 0`, otherwise
`delta / (1 - |2 * lightness - 1|)`. -/
def hslSaturation (c : RGB) : ℚ :=
  if hslDelta c = 0 then 0
  else hslDelta c / (1 - |2 * hslLightness c - 1|)

/-- The emitted hue `h = Math.round(hue) % 360` in `rgbToHsl`; `Int.tmod` is
the JavaScript remainder (truncated toward zero, sign of the dividend). -/
def hslH (c : RGB) : ℤ := Int.tmod (jsRound (hslHue c)) 360

/-- `rgbToHsl` from `convert.ts`: the rendered `hsl(h, s%, l%)` string. -/
def rgbToHsl (c : RGB) : String :=
  "hsl(" ++ toString (hslH c) ++ ", " ++ toString (jsRound (hslSaturation c * 100)) ++
    "%, " ++ toString (jsRound (hslLightness c * 100)) ++ "%)"

theorem hslMin_le_hslMax (c : RGB) : hslMin c ≤ hslMax c :=
  le_trans (min_le_left _ _) (le_max_left _ _)

/-- The raw hue is never negative: in every branch the quotient is at least
`-1`, and the additive offsets keep the bracket non-negative. -/
theorem hslHue_nonneg (c : RGB) : 0 ≤ hslHue c := by
  unfold hslHue
  by_cases hd : hslDelta c = 0
  · rw [if_pos hd]
  · rw [if_neg hd]
    have hdpos : 0 < hslDelta c := by
      have h1 := hslMin_le_hslMax c
      have h2 : hslDelta c = hslMax c - hslMin c := rfl
      have h3 : 0 ≤ hslDelta c := by rw [h2]; linarith
      exact lt_of_le_of_ne h3 (Ne.symm hd)
    have hrmin : hslMin c ≤ chan01 c.1 := min_le_left _ _
    have hgmin : hslMin c ≤ chan01 c.2.1 :=
      le_trans (min_le_right _ _) (min_le_left _ _)
    have hbmin : hslMin c ≤ chan01 c.2.2 :=
      le_trans (min_le_right _ _) (min_le_right _ _)
    have hrmax : chan01 c.1 ≤ hslMax c := le_max_left _ _
    have hgmax : chan01 c.2.1 ≤ hslMax c :=
      le_trans (le_max_left _ _) (le_max_right _ _)
    have hbmax : chan01 c.2.2 ≤ hslMax c :=
      le_trans (le_max_right _ _) (le_max_right _ _)
    have hdelta : hslDelta c = hslMax c - hslMin c := rfl
    split_ifs with h1 h2 h3
    · have hq : -(1 : ℚ) ≤ (chan01 c.2.1 - chan01 c.2.2) / hslDelta c := by
        rw [le_div_iff₀ hdpos]; linarith
      nlinarith
    · have hq : 0 ≤ (chan01 c.2.1 - chan01 c.2.2) / hslDelta c := by
        apply div_nonneg _ (le_of_lt hdpos)
        linarith [not_lt.mp h2]
      nlinarith
    · have hq : -(1 : ℚ) ≤ (chan01 c.2.2 - chan01 c.1) / hslDelta c := by
        rw [le_div_iff₀ hdpos]; linarith
      nlinarith
    · have hq : -(1 : ℚ) ≤ (chan01 c.1 - chan01 c.2.1) / hslDelta c := by
        rw [le_div_iff₀ hdpos]; linarith
      nlinarith

/-- C8: `rgbToHsl` returns the standard strings on pure red, green, blue,
black and white, and for every channel triple in `[0, 255]` the emitted hue
is an integer number of degrees in `[0, 360)`. -/
theorem rgbToHsl_spec :
    rgbToHsl (255, 0, 0) = "hsl(0, 100%, 50%)" ∧
    rgbToHsl (0, 255, 0) = "hsl(120, 100%, 50%)" ∧
    rgbToHsl (0, 0, 255) = "hsl(240, 100%, 50%)" ∧
    rgbToHsl (0, 0, 0) = "hsl(0, 0%, 0%)" ∧
    rgbToHsl (255, 255, 255) = "hsl(0, 0%, 100%)" ∧
    ∀ c : RGB, c.1 ≤ 255 → c.2.1 ≤ 255 → c.2.2 ≤ 255 →
      0 ≤ hslH c ∧ hslH c < 360 := by
  refine ⟨?_, ?_, ?_, ?_, ?_, ?_⟩
  · have hH : hslH (255, 0, 0) = 0 := by
      have h1 : jsRound (hslHue (255, 0, 0)) = 0 := by
        norm_num [jsRound, hslHue, hslDelta, hslMax, hslMin, chan01, clamp01]
      rw [hslH, h1]; decide
    have hS : jsRound (hslSaturation (255, 0, 0) * 100) = 100 := by
      norm_num [jsRound, hslSaturation, hslLightness, hslDelta, hslMax, hslMin,
        chan01, clamp01]
    have hL : jsRound (hslLightness (255, 0, 0) * 100) = 50 := by
      norm_num [jsRound, hslLightness, hslMax, hslMin, chan01, clamp01]
    rw [rgbToHsl, hH, hS, hL]; rfl
  · have hH : hslH (0, 255, 0) = 120 := by
      have h1 : jsRound (hslHue (0, 255, 0)) = 120 := by
        norm_num [jsRound, hslHue, hslDelta, hslMax, hslMin, chan01, clamp01]
      rw [hslH, h1]; decide
    have hS : jsRound (hslSaturation (0, 255, 0) * 100) = 100 := by
      norm_num [jsRound, hslSaturation, hslLightness, hslDelta, hslMax, hslMin,
        chan01, clamp01]
    have hL : jsRound (hslLightness (0, 255, 0) * 100) = 50 := by
      norm_num [jsRound, hslLightness, hslMax, hslMin, chan01, clamp01]
    rw [rgbToHsl, hH, hS, hL]; rfl
  · have hH : hslH (0, 0, 255) = 240 := by
      have h1 : jsRound (hslHue (0, 0, 255)) = 240 := by
        norm_num [jsRound, hslHue, hslDelta, hslMax, hslMin, chan01, clamp01]
      rw [hslH, h1]; decide
    have hS : jsRound (hslSaturation (0, 0, 255) * 100) = 100 := by
      norm_num [jsRound, hslSaturation, hslLightness, hslDelta, hslMax, hslMin,
        chan01, clamp01]
    have hL : jsRound (hslLightness (0, 0, 255) * 100) = 50 := by
      norm_num [jsRound, hslLightness, hslMax, hslMin, chan01, clamp01]
    rw [rgbToHsl, hH, hS, hL]; rfl
  · have hH : hslH (0, 0, 0) = 0 := by
      have h1 : jsRound (hslHue (0, 0, 0)) = 0 := by
        norm_num [jsRound, hslHue, hslDelta, hslMax, hslMin, chan01, clamp01]
      rw [hslH, h1]; decide
    have hS : jsRound (hslSaturation (0, 0, 0) * 100) = 0 := by
      norm_num [jsRound, hslSaturation, hslLightness, hslDelta, hslMax, hslMin,
        chan01, clamp01]
    have hL : jsRound (hslLightness (0, 0, 0) * 100) = 0 := by
      norm_num [jsRound, hslLightness, hslMax, hslMin, chan01, clamp01]
    rw [rgbToHsl, hH, hS, hL]; rfl
  · have hH : hslH (255, 255, 255) = 0 := by
      have h1 : jsRound (hslHue (255, 255, 255)) = 0 := by
        norm_num [jsRound, hslHue, hslDelta, hslMax, hslMin, chan01, clamp01]
      rw [hslH, h1]; decide
    have hS : jsRound (hslSaturation (255, 255, 255) * 100) = 0 := by
      norm_num [jsRound, hslSaturation, hslLightness, hslDelta, hslMax, hslMin,
        chan01, clamp01]
    have hL : jsRound (hslLightness (255, 255, 255) * 100) = 100 := by
      norm_num [jsRound, hslLightness, hslMax, hslMin, chan01, clamp01]
    rw [rgbToHsl, hH, hS, hL]; rfl
  · intro c _ _ _
    have h0 : 0 ≤ jsRound (hslHue c) := by
      rw [jsRound]
      exact Int.le_floor.mpr (by push_cast; linarith [hslHue_nonneg c])
    rw [hslH, Int.tmod_eq_emod h0 (by norm_num)]
    exact ⟨Int.emod_nonneg _ (by norm_num), Int.emod_lt_of_pos _ (by norm_num)⟩

/-- Witness for C8's quantified part at the channel triple `(10, 20, 30)`. -/
theorem rgbToHsl_spec_witness :
    0 ≤ hslH (10, 20, 30) ∧ hslH (10, 20, 30) < 360 :=
  rgbToHsl_spec.2.2.2.2.2 (10, 20, 30) (by decide) (by decide) (by decide)

/-! ### The palette-extraction facade (`extractColors` in `main.ts`)

`extractColors` is `async`: it validates its arguments, `await`s the
pixel-source collaborator (`getImageDataFromFile`), quantizes, and formats.
The embedding returns the `Except`-valued outcome paired with a `Bool`
recording whether the pixel-source collaborator was consulted (`true` exactly
on the paths that reach the `await`), which makes "fails before invoking the
pixel source" expressible. `maxColors` is a JavaScript number, modelled as a
rational so that `Number.isInteger` becomes a denominator-1 test. The
transcendental `rgbToOklch` conversion (cube roots, `atan2`) is
floating-point and is abstracted as the parameter `oklchFn`. -/

/-- A formatted palette: `'rgb'` yields RGB triples, the string formats yield
rendered strings. -/
inductive Formatted where
  | strs : List String → Formatted
  | rgbs : List RGB → Formatted
deriving DecidableEq

/-- The list in `['rgb', 'hex', 'hsl', 'oklch'].includes(format)`. -/
def validFormats : List String := ["rgb", "hex", "hsl", "oklch"]

/-- `formatColors` from `colorFormatters` (`src/unnamed/part_000`): the
`switch` on the requested format, with the `default` branch throwing an
unsupported-format error. -/
def formatColors (oklchFn : RGB → String) (colors : List RGB)
    (format : String) : Except String Formatted :=
  if format = "rgb" then .ok (.rgbs colors)
  else if format = "hex" then .ok (.strs (colors.map rgbToHex))
  else if format = "hsl" then .ok (.strs (colors.map rgbToHsl))
  else if format = "oklch" then .ok (.strs (colors.map oklchFn))
  else .error ("Unsupported color format: " ++ format)

/-- `extractColors` from `main.ts`: validate `maxColors` (positive integer),
then the format, then `await` the pixel source, quantize and format. The
second component records whether the pixel-source collaborator was invoked. -/
def extractColors (oklchFn : RGB → String) (rand : ℕ → ℕ)
    (pixelSource : Except String (List ℕ)) (maxColors : ℚ) (format : String)
    (distance : ℕ) : Except String Formatted × Bool :=
  if maxColors ≤ 0 ∨ maxColors.den ≠ 1 then
    (.error "maxColors must be a positive integer greater than 0.", false)
  else if ¬ validFormats.contains format then
    (.error ("Unsupported color format: " ++ format), false)
  else
    match pixelSource with
    | .error e => (.error e, true)
    | .ok data =>
      (formatColors oklchFn (quantize rand data maxColors.num.toNat distance)
        format, true)

/-- C6: for every `maxColors` that is zero, negative or not an integer,
`extractColors` fails with the descriptive error naming the positive-integer
constraint, and the pixel-source collaborator is never consulted (second
component `false`) — so no decoding or clustering work happens. -/
theorem extractColors_rejects_bad_maxColors (oklchFn : RGB → String)
    (rand : ℕ → ℕ) (pixelSource : Except String (List ℕ)) (maxColors : ℚ)
    (format : String) (distance : ℕ)
    (hbad : maxColors ≤ 0 ∨ maxColors.den ≠ 1) :
    extractColors oklchFn rand pixelSource maxColors format distance =
      (.error "maxColors must be a positive integer greater than 0.", false) := by
  rw [extractColors.eq_def, if_pos hbad]

/-- Witness for C6 at `maxColors = -3` with an available pixel source. -/
theorem extractColors_rejects_bad_maxColors_witness :
    extractColors (fun _ => "") (fun _ => 0) (.ok [255, 0, 0, 255]) (-3) "hex" 10 =
      (.error "maxColors must be a positive integer greater than 0.", false) :=
  extractColors_rejects_bad_maxColors (fun _ => "") (fun _ => 0)
    (.ok [255, 0, 0, 255]) (-3) "hex" 10 (Or.inl (by norm_num))

end EagleColor
